import Mathlib

/-!
Verification of the market-role core of the `assume` repository
(`src/assume/markets/base_market.py`), as a shallow embedding in Lean.

Python's dynamically typed numeric values are embedded as explicit sum
types (`PyNum` for int-or-float scalars, `PyVol` for bid volumes which
may also be a per-product mapping); operations that would raise a
`TypeError`/`AttributeError` in Python (for example `abs` of a dict, or
`.items()` of a scalar) are embedded as checks that fail, because
`MarketRole.handle_orderbook` catches every exception alike.
Floats are modelled as exact rationals.  Timestamps are integers.
-/

namespace AssumeMarket

/-- A Python numeric scalar: either an `int` or a `float`
(floats modelled as exact rationals). -/
inductive PyNum where
  | int (n : Int)
  | float (q : Rat)
deriving DecidableEq

/-- The numeric value of a scalar, for comparisons. -/
def PyNum.toRat : PyNum → Rat
  | .int n => (n : Rat)
  | .float q => q

/-- Python `isinstance(x, int)` for a scalar. -/
def PyNum.isInt : PyNum → Bool
  | .int _ => true
  | .float _ => false

/-- A bid volume as carried on an order dict: an `int`, a `float`, or a
dict mapping product start instants to scalar volumes (block bids). -/
inductive PyVol where
  | int (n : Int)
  | float (q : Rat)
  | map (m : List (Int × PyNum))
deriving DecidableEq

/-- Python `isinstance(x, int)` for a volume value. -/
def PyVol.isInt : PyVol → Bool
  | .int _ => true
  | _ => false

/-- An order dict.  `bid_type = none` models the key being absent,
`bid_type = some none` models the key being present with value `None`.
`fields` lists the names of any further keys present on the dict
(checked against `marketconfig.additional_fields`). -/
structure Order where
  start_time : Int
  end_time : Int
  only_hours : Option (List Int)
  price : PyNum
  volume : PyVol
  bid_type : Option (Option String)
  agent_id : Option (String × String)
  fields : List String
deriving DecidableEq

/-- The per-market configuration (`MarketConfig`), restricted to the
fields the role reads.  A tick of `none` models a Python-falsy tick
(`None`); configured ticks are the `some` case. -/
structure MarketConfig where
  name : String
  maximum_bid_price : Rat
  minimum_bid_price : Rat
  maximum_bid_volume : Rat
  price_tick : Option Rat
  volume_tick : Option Rat
  additional_fields : List String
  eligible_obligations_lambda : String → Bool
  supports_get_unmatched : Bool
  opening_duration : Int
  opening_hours_until : Option Int
  market_products : List Int

/-- The mutable state owned by a `MarketRole`: the resting order book
`all_orders` and the `registered_agents` list, both set up empty in
`MarketRole.setup`. -/
structure MarketState where
  all_orders : List Order
  registered_agents : List (String × String)
deriving DecidableEq

/-- An outbound instant ACL message (only the content fields the claims
mention are modelled). -/
structure SentMessage where
  receiver_addr : String
  receiver_id : String
  context : String
  message : String
deriving DecidableEq

/-- Effective maximum price: pre-divided by the price tick (floor) when
a tick is configured (`handle_orderbook`, lines 204-211). -/
def effMaxPrice (cfg : MarketConfig) : Rat :=
  match cfg.price_tick with
  | none => cfg.maximum_bid_price
  | some t => ((cfg.maximum_bid_price / t).floor : Int)

/-- Effective minimum price: pre-divided by the price tick (ceil) when a
tick is configured. -/
def effMinPrice (cfg : MarketConfig) : Rat :=
  match cfg.price_tick with
  | none => cfg.minimum_bid_price
  | some t => ((cfg.minimum_bid_price / t).ceil : Int)

/-- Effective maximum volume: pre-divided by the volume tick (floor)
when a tick is configured (lines 212-213). -/
def effMaxVolume (cfg : MarketConfig) : Rat :=
  match cfg.volume_tick with
  | none => cfg.maximum_bid_volume
  | some t => ((cfg.maximum_bid_volume / t).floor : Int)

/-- The per-order mutations done before/among the asserts: stamp the
submitter as `agent_id`, default a falsy `only_hours` to `None`, and
replace a present-but-`None` `bid_type` by `"SB"` (lines 216-218 and
227-229). -/
def normalizeOrder (addr aid : String) (o : Order) : Order :=
  { o with
    agent_id := some (addr, aid)
    only_hours := match o.only_hours with
      | some l => if l.isEmpty then none else some l
      | none => none
    bid_type := match o.bid_type with
      | some none => some (some "SB")
      | bt => bt }

/-- Python `abs(volume) <= bound` for a scalar volume; `abs` of a dict
raises `TypeError`, embedded as `false` (the exception is caught and
turned into a rejection). -/
def volumeAbsLe (v : PyVol) (bound : Rat) : Bool :=
  match v with
  | .int n => decide (|(n : Rat)| ≤ bound)
  | .float q => decide (|q| ≤ bound)
  | .map _ => false

/-- Python `False not in [abs(v) <= bound for _, v in volume.items()]`;
`.items()` of a non-dict raises `AttributeError`, embedded as `false`. -/
def mapVolumesLe (v : PyVol) (bound : Rat) : Bool :=
  match v with
  | .map m => m.all fun pv => decide (|pv.2.toRat| ≤ bound)
  | _ => false

/-- The `bid_type` assert (lines 230-233): when the key is present its
value must be `"SB"` or `"BB"` (a present `None` has already been
normalized to `"SB"`). -/
def bidTypeOk (o : Order) : Bool :=
  match o.bid_type with
  | none => true
  | some none => true
  | some (some t) => decide (t = "SB") || decide (t = "BB")

/-- Membership of a field name among the keys of an order dict, as they
stand when the `additional_fields` check runs (after `agent_id` and
`only_hours` have been written). -/
def Order.hasKey (o : Order) (f : String) : Bool :=
  f == "start_time" || f == "end_time" || f == "only_hours" || f == "price"
    || f == "volume" || f == "agent_id" || (o.bid_type.isSome && f == "bid_type")
    || o.fields.contains f

/-- The conjunction of the assert statements in the validation loop of
`handle_orderbook` (lines 219-252), evaluated on the normalized order.
Any failing assert raises, is caught, and rejects the batch, so only
the conjunction matters. -/
def checkAsserts (cfg : MarketConfig) (o : Order) : Bool :=
  decide (o.price.toRat ≤ effMaxPrice cfg)
    && decide (effMinPrice cfg ≤ o.price.toRat)
    && bidTypeOk o
    && (if o.bid_type = some (some "SB") ∨ o.bid_type = none then
          volumeAbsLe o.volume (effMaxVolume cfg) else true)
    && (if o.bid_type = some (some "BB") then
          mapVolumesLe o.volume (effMaxVolume cfg) else true)
    && (if cfg.price_tick.isSome then o.price.isInt else true)
    && (if cfg.volume_tick.isSome then o.volume.isInt else true)
    && cfg.additional_fields.all fun f => o.hasKey f

/-- One iteration of the validation loop: normalize the order, run the
asserts, and return the order as appended to `all_orders` (or `none`
when some assert raised). -/
def checkOrder (cfg : MarketConfig) (addr aid : String) (o : Order) : Option Order :=
  let o' := normalizeOrder addr aid o
  if checkAsserts cfg o' then some o' else none

/-- The validation loop over a submitted batch.  Returns the orders
appended to `all_orders` and whether the loop ran to completion: the
first failing order raises out of the loop, so the orders already
appended before it stay appended. -/
def processOrders (cfg : MarketConfig) (addr aid : String) : List Order → List Order × Bool
  | [] => ([], true)
  | o :: rest =>
    match checkOrder cfg addr aid o with
    | some o' =>
      let r := processOrders cfg addr aid rest
      (o' :: r.1, r.2)
    | none => ([], false)

/-- `MarketRole.handle_orderbook` (lines 188-265): validate the batch
order by order, appending each validated order to the resting book; on
the first failure the exception is caught and a single rejection notice
`{context: "submit_bids", message: "Rejected"}` is scheduled back to
the submitter. -/
def handle_orderbook (cfg : MarketConfig) (st : MarketState) (orderbook : List Order)
    (addr aid : String) : MarketState × List SentMessage :=
  let r := processOrders cfg addr aid orderbook
  ({ st with all_orders := st.all_orders ++ r.1 },
    if r.2 then [] else [⟨addr, aid, "submit_bids", "Rejected"⟩])

/-- `MarketRole.handle_registration` (lines 172-186): append the sender
to `registered_agents` iff the configured eligibility predicate accepts
the sender id. -/
def handle_registration (cfg : MarketConfig) (st : MarketState) (addr aid : String) :
    MarketState :=
  if cfg.eligible_obligations_lambda aid then
    { st with registered_agents := st.registered_agents ++ [(addr, aid)] }
  else st

/-- The reply scheduled by `handle_get_unmatched`. -/
structure UnmatchedReply where
  receiver_addr : String
  receiver_id : String
  context : String
  available_orders : List Order
deriving DecidableEq

/-- The filter predicate `order_matches_req` of `handle_get_unmatched`
(lines 284-289). -/
def order_matches_req (req o : Order) : Bool :=
  decide (o.start_time = req.start_time) && decide (o.end_time = req.end_time)
    && decide (o.only_hours = req.only_hours)

/-- `MarketRole.handle_get_unmatched` (lines 267-304): reply with the
resting orders matching the requested key, or the whole resting book
when no (truthy) filter order is supplied; the state is not touched.
`req = none` models a missing or falsy `content.get("order")`. -/
def handle_get_unmatched (st : MarketState) (req : Option Order) (addr aid : String) :
    MarketState × UnmatchedReply :=
  let available := match req with
    | some r => st.all_orders.filter (order_matches_req r)
    | none => st.all_orders
  (st, ⟨addr, aid, "get_unmatched", available⟩)

/-- A market product tuple `(start, end, only_hours)`. -/
structure MarketProduct where
  start : Int
  stop : Int
  only_hours : Option (List Int)
deriving DecidableEq

/-- The opening notice broadcast to every registered agent
(`MarketRole.opening`, lines 137-155). -/
structure OpeningMessage where
  market_id : String
  start : Int
  stop : Int
  products : List MarketProduct
deriving DecidableEq

/-- The externally observable effects of one run of `MarketRole.opening`:
the opening notices sent (receiver address, receiver id, content), the
scheduled `clear_market` task (its timestamp and products) and the
scheduled next `opening` task (its timestamp), if any. -/
structure OpeningEffects where
  messages : List (String × String × OpeningMessage)
  clearing_scheduled : Option (Int × List MarketProduct)
  next_opening : Option Int
deriving DecidableEq

/-- `MarketRole.opening` (lines 121-170).  `get_avail` stands for
`get_available_products` (defined in `assume.common.utils`, outside the
sources at hand) and `after` for `opening_hours.after` of the
recurrence rule; both are passed as parameters.  When the rule carries
an explicit `_until` bound and the computed closing instant exceeds it,
the method returns before sending or scheduling anything
(lines 132-135). -/
def opening (cfg : MarketConfig) (get_avail : List Int → Int → List MarketProduct)
    (after : Int → Option Int) (st : MarketState) (now : Int) : OpeningEffects :=
  let market_open := now
  let market_closing := market_open + cfg.opening_duration
  let products := get_avail cfg.market_products market_open
  let go : Unit → OpeningEffects := fun _ =>
    { messages := st.registered_agents.map fun ag =>
        (ag.1, ag.2, ⟨cfg.name, market_open, market_closing, products⟩)
      clearing_scheduled := some (market_closing, products)
      next_opening := after market_open }
  match cfg.opening_hours_until with
  | some u => if u < market_closing then ⟨[], none, none⟩ else go ()
  | none => go ()

/-- The sort/group key used by `clear_market`: the `agent_id` tuple,
ordered as Python orders `(addr, aid)` string tuples (lexicographically);
a missing `agent_id` is sorted below every tuple. -/
def agentKey (o : Order) : WithBot (Lex (String × String)) :=
  match o.agent_id with
  | none => ⊥
  | some p => ((toLex p : Lex (String × String)) : WithBot (Lex (String × String)))

/-- The key a registered agent tuple is looked up under. -/
def pairKey (ag : String × String) : WithBot (Lex (String × String)) :=
  ((toLex ag : Lex (String × String)) : WithBot (Lex (String × String)))

/-- The comparison used to sort an orderbook by `agent_id`
(`accepted_orderbook.sort(key=itemgetter("agent_id"))`). -/
def agentLe (o o' : Order) : Bool :=
  decide (agentKey o ≤ agentKey o')

/-- One step of `itertools.groupby`, processed from the right: prepend
element `a` to the grouping of the rest, merging it into the first
group when its key matches. -/
def addToGroups {α K : Type} [DecidableEq K] (key : α → K) (a : α) :
    List (K × List α) → List (K × List α)
  | [] => [(key a, [a])]
  | (k, g) :: gs =>
    if key a = k then (key a, a :: g) :: gs else (key a, [a]) :: (k, g) :: gs

/-- `itertools.groupby`: split a list into maximal runs of consecutive
elements with equal keys, each run paired with its key. -/
def groupPairs {α K : Type} [DecidableEq K] (key : α → K) : List α → List (K × List α)
  | [] => []
  | a :: rest => addToGroups key a (groupPairs key rest)

/-- One entry's contribution to a dict lookup: a later entry with the
same key overwrites an earlier one, so the rest of the list is
consulted first. -/
def dictStep {α K : Type} [DecidableEq K] (p : K × List α) (a : K) :
    Option (List α) → Option (List α)
  | some r => some r
  | none => if p.1 = a then some p.2 else none

/-- Lookup in a Python dict built from an association list by
comprehension (later entries overwrite earlier ones). -/
def dictGet {K α : Type} [DecidableEq K] : List (K × List α) → K → Option (List α)
  | [], _ => none
  | p :: rest, a => dictStep p a (dictGet rest a)

/-- `{agent: list(bids) for agent, bids in groupby(book, itemgetter("agent_id"))}`
after `book.sort(key=itemgetter("agent_id"))` (lines 324-333). -/
def bidsByAgent (book : List Order) : List (WithBot (Lex (String × String)) × List Order) :=
  groupPairs agentKey (book.mergeSort agentLe)

/-- The clearing notice sent to one registered agent (lines 334-348). -/
structure ClearingMessage where
  receiver_addr : String
  receiver_id : String
  market_id : String
  orderbook : List Order
  rejected : List Order
deriving DecidableEq

/-- The fan-out of clearing results: one clearing notice per entry of
`registered_agents`, each carrying that agent's accepted and rejected
bids (`dict.get(agent, [])`). -/
def clearingMessages (cfg : MarketConfig) (accepted rejected : List Order)
    (agents : List (String × String)) : List ClearingMessage :=
  let accepted_bids := bidsByAgent accepted
  let rejected_bids := bidsByAgent rejected
  agents.map fun ag =>
    { receiver_addr := ag.1
      receiver_id := ag.2
      market_id := cfg.name
      orderbook := (dictGet accepted_bids (pairKey ag)).getD []
      rejected := (dictGet rejected_bids (pairKey ag)).getD [] }

/-- The result of the configured matching function: the partition of the
resting book (the per-product metadata records are not modelled — no
claim touches them). -/
structure MechResult where
  accepted : List Order
  rejected : List Order

/-- `MarketRole.clear_market` (lines 306-365): invoke the configured
`market_mechanism` on the role's state, then fan the partition out as
one clearing notice per registered agent.  The mechanism receives the
role object (so it may rewrite `all_orders`); it is passed here as a
state transformer. -/
def clear_market (cfg : MarketConfig)
    (mech : MarketState → List MarketProduct → MechResult × MarketState)
    (st : MarketState) (products : List MarketProduct) :
    MarketState × List ClearingMessage :=
  let r := mech st products
  (r.2, clearingMessages cfg r.1.accepted r.1.rejected r.2.registered_agents)

/-- Modelled from the spec: the concrete market mechanisms
(`marketconfig.market_mechanism`, e.g. the pay-as-clear/pay-as-bid
clearing algorithms) are repository code not present under `src/`.
Per spec section 4.3 a mechanism "must partition every order present in
the resting book at call time into accepted or rejected" and afterwards
"the resting order book for the cleared products is conceptually
emptied (orders cleared once)".  `acceptFn` abstracts which side of the
partition an order lands on. -/
def specMarketMechanism (acceptFn : Order → Bool) :
    MarketState → List MarketProduct → MechResult × MarketState :=
  fun st _ =>
    (⟨st.all_orders.filter acceptFn, st.all_orders.filter fun o => ! acceptFn o⟩,
      { st with all_orders := [] })

/-- The orders of a batch that the validation loop appends before the
first failure: the maximal prefix of per-order successes, normalized. -/
def acceptedPrefix (cfg : MarketConfig) (addr aid : String) (batch : List Order) :
    List Order :=
  (batch.takeWhile fun o => (checkOrder cfg addr aid o).isSome).filterMap
    (checkOrder cfg addr aid)

/-- Spec section 8, bound enforcement: the order's price lies within the
(tick-adjusted) configured price bounds. -/
def priceInBounds (cfg : MarketConfig) (o : Order) : Prop :=
  effMinPrice cfg ≤ o.price.toRat ∧ o.price.toRat ≤ effMaxPrice cfg

/-- Spec section 8, bound enforcement for volumes: a block bid carries a
per-product mapping all of whose entries are bounded by the
(tick-adjusted) maximum volume; any other order carries a scalar volume
bounded by it. -/
def volumeInBounds (cfg : MarketConfig) (o : Order) : Prop :=
  if o.bid_type = some (some "BB") then
    ∃ m, o.volume = PyVol.map m ∧ ∀ pv ∈ m, |pv.2.toRat| ≤ effMaxVolume cfg
  else
    match o.volume with
    | .int n => |(n : Rat)| ≤ effMaxVolume cfg
    | .float q => |q| ≤ effMaxVolume cfg
    | .map _ => False

/-- A concrete market configuration for concrete evaluations: price
bounds [-500, 3000], volume bound 10000, no ticks, no additional
fields, every sender eligible. -/
def cfg0 : MarketConfig :=
  { name := "EOM"
    maximum_bid_price := 3000
    minimum_bid_price := -500
    maximum_bid_volume := 10000
    price_tick := none
    volume_tick := none
    additional_fields := []
    eligible_obligations_lambda := fun _ => true
    supports_get_unmatched := true
    opening_duration := 3600
    opening_hours_until := none
    market_products := [] }

/-- `cfg0` with a volume tick of 1. -/
def cfgV : MarketConfig := { cfg0 with volume_tick := some 1 }

/-- `cfg0` with a price tick of 5. -/
def cfgP : MarketConfig := { cfg0 with price_tick := some 5 }

/-- `cfg0` with a recurrence end bound at instant 10 and a 5-long open
window. -/
def cfgU : MarketConfig := { cfg0 with opening_hours_until := some 10, opening_duration := 5 }

/-- The freshly set-up state: empty book, no registered agents. -/
def st0 : MarketState := ⟨[], []⟩

/-- A valid simple order. -/
def okOrder : Order :=
  { start_time := 0
    end_time := 3600
    only_hours := none
    price := .float 50
    volume := .int 10
    bid_type := some (some "SB")
    agent_id := none
    fields := [] }

/-- An order violating the maximum price bound of `cfg0`. -/
def badOrder : Order := { okOrder with price := .float 5000 }

/-- `okOrder` tagged as a linked bid. -/
def lbOrder : Order := { okOrder with bid_type := some (some "LB") }

/-- A block bid with a per-product volume mapping. -/
def bbOrder : Order :=
  { okOrder with bid_type := some (some "BB"), volume := .map [(0, .int 5)] }

/-- A state whose resting book holds one order. -/
def stW : MarketState := ⟨[okOrder], []⟩

/-! ### Helper lemmas -/

set_option maxHeartbeats 1000000 in
theorem processOrders_eq (cfg : MarketConfig) (addr aid : String) (batch : List Order) :
    processOrders cfg addr aid batch =
      (acceptedPrefix cfg addr aid batch,
        batch.all fun o => (checkOrder cfg addr aid o).isSome) := by
  induction batch with
  | nil => rfl
  | cons o rest ih =>
    rw [processOrders]
    cases h : checkOrder cfg addr aid o with
    | some o' =>
      simp only [h, List.takeWhile_cons, List.all_cons, Option.isSome_some, if_true,
        List.filterMap_cons, ih]
      simp [acceptedPrefix, List.takeWhile_cons, h]
    | none =>
      simp [h, acceptedPrefix, List.takeWhile_cons]

theorem exists_failure_all_false {cfg : MarketConfig} {addr aid : String}
    {batch : List Order} (h : ∃ o ∈ batch, checkOrder cfg addr aid o = none) :
    (batch.all fun o => (checkOrder cfg addr aid o).isSome) = false := by
  obtain ⟨o, ho, hchk⟩ := h
  simp only [List.all_eq_false]
  exact ⟨o, ho, by simp [hchk]⟩

theorem handle_orderbook_failure_message (cfg : MarketConfig) (st : MarketState)
    (batch : List Order) (addr aid : String)
    (h : ∃ o ∈ batch, checkOrder cfg addr aid o = none) :
    handle_orderbook cfg st batch addr aid =
      ({ st with all_orders := st.all_orders ++ acceptedPrefix cfg addr aid batch },
        [⟨addr, aid, "submit_bids", "Rejected"⟩]) := by
  unfold handle_orderbook
  rw [processOrders_eq, exists_failure_all_false h]
  rfl

theorem handle_orderbook_eq (cfg : MarketConfig) (st : MarketState)
    (batch : List Order) (addr aid : String) :
    handle_orderbook cfg st batch addr aid =
      ({ st with all_orders := st.all_orders ++ acceptedPrefix cfg addr aid batch },
        if batch.all (fun o => (checkOrder cfg addr aid o).isSome) then []
        else [⟨addr, aid, "submit_bids", "Rejected"⟩]) := by
  unfold handle_orderbook
  rw [processOrders_eq]

theorem mem_acceptedPrefix {cfg : MarketConfig} {addr aid : String}
    {batch : List Order} {o : Order} (h : o ∈ acceptedPrefix cfg addr aid batch) :
    ∃ x, checkOrder cfg addr aid x = some o := by
  unfold acceptedPrefix at h
  obtain ⟨x, _, hchk⟩ := List.mem_filterMap.mp h
  exact ⟨x, hchk⟩

theorem checkOrder_eq_some {cfg : MarketConfig} {addr aid : String} {o o' : Order}
    (h : checkOrder cfg addr aid o = some o') :
    o' = normalizeOrder addr aid o ∧ checkAsserts cfg o' = true := by
  unfold checkOrder at h
  by_cases hc : checkAsserts cfg (normalizeOrder addr aid o) = true
  · rw [if_pos hc] at h
    obtain rfl : normalizeOrder addr aid o = o' := Option.some.inj h
    exact ⟨rfl, hc⟩
  · rw [if_neg hc] at h
    cases h

/-! ### Claim theorems -/

/-- C8: a registration message appends the sender's (address, id) pair
to `registered_agents` exactly when the configured eligibility
predicate accepts the sender id; a repeated registration appends a
duplicate entry (no deduplication), and the resting book is untouched. -/
theorem handle_registration_appends (cfg : MarketConfig) (st : MarketState)
    (addr aid : String) :
    (handle_registration cfg st addr aid).registered_agents =
      (if cfg.eligible_obligations_lambda aid then
        st.registered_agents ++ [(addr, aid)] else st.registered_agents)
    ∧ (handle_registration cfg st addr aid).all_orders = st.all_orders
    ∧ (handle_registration cfg (handle_registration cfg st addr aid) addr aid).registered_agents =
      (if cfg.eligible_obligations_lambda aid then
        st.registered_agents ++ [(addr, aid), (addr, aid)] else st.registered_agents) := by
  unfold handle_registration
  by_cases h : cfg.eligible_obligations_lambda aid <;> simp [h]

/-- C9: the unmatched-orders query replies with exactly the resting
orders matching the requested (start_time, end_time, only_hours) key —
or the full resting book when no filter order is supplied — and leaves
the market state (resting book and registered agents) unchanged. -/
theorem handle_get_unmatched_pure (st : MarketState) (req : Option Order)
    (addr aid : String) :
    (handle_get_unmatched st req addr aid).1 = st
    ∧ ∀ o, o ∈ (handle_get_unmatched st req addr aid).2.available_orders ↔
        (o ∈ st.all_orders ∧ ∀ r, req = some r →
          (o.start_time = r.start_time ∧ o.end_time = r.end_time
            ∧ o.only_hours = r.only_hours)) := by
  refine ⟨rfl, fun o => ?_⟩
  cases req with
  | none => simp [handle_get_unmatched]
  | some r =>
    simp [handle_get_unmatched, order_matches_req, List.mem_filter, and_assoc]

/-- C7: when the recurrence rule carries an explicit end bound and the
computed closing instant (opening instant plus open-duration) exceeds
it, `opening` is suppressed entirely: no opening notice is sent, no
clearing task and no further opening task is scheduled. -/
theorem opening_suppressed (cfg : MarketConfig)
    (get_avail : List Int → Int → List MarketProduct) (after : Int → Option Int)
    (st : MarketState) (now u : Int) (hu : cfg.opening_hours_until = some u)
    (h : u < now + cfg.opening_duration) :
    opening cfg get_avail after st now = ⟨[], none, none⟩ := by
  unfold opening
  rw [hu]
  simp [h]

theorem opening_suppressed_witness :
    opening cfgU (fun _ _ => []) (fun _ => none) st0 8 = ⟨[], none, none⟩ :=
  opening_suppressed cfgU (fun _ _ => []) (fun _ => none) st0 8 10 rfl (by decide)

/-- C2: after `clear_market` returns, no order that was in the resting
book at invocation is visible to a later clearing pass: the matching
function (modelled from the spec, section 4.3) consumes the whole book,
and `clear_market` does not repopulate it. -/
theorem clear_market_consumes (cfg : MarketConfig) (f : Order → Bool)
    (st : MarketState) (products : List MarketProduct) (o : Order)
    (h : o ∈ st.all_orders) :
    o ∉ (clear_market cfg (specMarketMechanism f) st products).1.all_orders := by
  simp [clear_market, specMarketMechanism]

theorem clear_market_consumes_witness :
    okOrder ∉ (clear_market cfg0 (specMarketMechanism fun _ => true) stW []).1.all_orders :=
  clear_market_consumes cfg0 (fun _ => true) stW [] okOrder (by simp [stW])

/-- C1 fails as stated: in the batch `[okOrder, badOrder]` the second
order violates the price bound and a single rejection notice is
scheduled, yet the first order of the batch stays in the resting book —
the book is not left "exactly as it was before the message arrived". -/
theorem handle_orderbook_not_atomic :
    checkOrder cfg0 "addr1" "agent1" badOrder = none
    ∧ (handle_orderbook cfg0 st0 [okOrder, badOrder] "addr1" "agent1").2 =
        [⟨"addr1", "agent1", "submit_bids", "Rejected"⟩]
    ∧ (handle_orderbook cfg0 st0 [okOrder, badOrder] "addr1" "agent1").1.all_orders =
        [normalizeOrder "addr1" "agent1" okOrder]
    ∧ (handle_orderbook cfg0 st0 [okOrder, badOrder] "addr1" "agent1").1.all_orders ≠
        st0.all_orders := by
  refine ⟨by decide, by decide, by decide, by decide⟩

/-- C1 (amended): a submission batch containing an order that fails
validation raises no exception out of the handler and schedules exactly
one rejection notice (context "submit_bids", message "Rejected") to the
submitter, and it leaves the registered agents unchanged; but the
resting book is not restored atomically: the validated orders of the
batch preceding the first failing one remain appended (only when the
first failure is the batch's first order is the book unchanged). -/
theorem handle_orderbook_reject (cfg : MarketConfig) (st : MarketState)
    (batch : List Order) (addr aid : String)
    (h : ∃ o ∈ batch, checkOrder cfg addr aid o = none) :
    (handle_orderbook cfg st batch addr aid).2 =
        [⟨addr, aid, "submit_bids", "Rejected"⟩]
    ∧ (handle_orderbook cfg st batch addr aid).1.all_orders =
        st.all_orders ++ acceptedPrefix cfg addr aid batch
    ∧ (handle_orderbook cfg st batch addr aid).1.registered_agents =
        st.registered_agents := by
  rw [handle_orderbook_failure_message cfg st batch addr aid h]
  exact ⟨rfl, rfl, rfl⟩

theorem handle_orderbook_reject_witness :
    (handle_orderbook cfg0 st0 [okOrder, badOrder] "a" "u").2 =
        [⟨"a", "u", "submit_bids", "Rejected"⟩]
    ∧ (handle_orderbook cfg0 st0 [okOrder, badOrder] "a" "u").1.all_orders =
        st0.all_orders ++ acceptedPrefix cfg0 "a" "u" [okOrder, badOrder]
    ∧ (handle_orderbook cfg0 st0 [okOrder, badOrder] "a" "u").1.registered_agents =
        st0.registered_agents :=
  handle_orderbook_reject cfg0 st0 [okOrder, badOrder] "a" "u"
    ⟨badOrder, by decide, by decide⟩

/-- C4 fails as stated: an order tagged "LB" does not pass the bid-type
check — its batch is rejected with a rejection notice and the book
stays empty — even though the same order tagged "SB" is accepted. -/
theorem lb_not_supported :
    (handle_orderbook cfg0 st0 [lbOrder] "a" "u").1.all_orders = []
    ∧ (handle_orderbook cfg0 st0 [lbOrder] "a" "u").2 =
        [⟨"a", "u", "submit_bids", "Rejected"⟩]
    ∧ (handle_orderbook cfg0 st0 [okOrder] "a" "u").2 = [] := by
  refine ⟨by decide, by decide, by decide⟩

/-- C4 (amended): the bid-type check accepts exactly the tags "SB" and
"BB" (a missing `bid_type` key is allowed and a present `None` value is
normalized to "SB").  An order carrying any other tag — including the
linked-bid tag "LB" — fails validation: it is never appended to the
resting book, and any batch containing it is answered with a single
rejection notice (as established for C1, rejection is not atomic, so
orders of the batch validated before the unsupported-tag order remain
appended). -/
theorem bid_type_gate (cfg : MarketConfig) (st : MarketState)
    (batch : List Order) (addr aid : String) (o : Order) :
    (bidTypeOk (normalizeOrder addr aid o) = true ↔
      (o.bid_type = none ∨ o.bid_type = some none
        ∨ o.bid_type = some (some "SB") ∨ o.bid_type = some (some "BB")))
    ∧ ∀ t, o.bid_type = some (some t) → t ≠ "SB" → t ≠ "BB" →
        checkOrder cfg addr aid o = none
        ∧ (o ∈ batch →
            (handle_orderbook cfg st batch addr aid).2 =
              [⟨addr, aid, "submit_bids", "Rejected"⟩])
        ∧ ∀ x ∈ (handle_orderbook cfg st batch addr aid).1.all_orders,
            x.bid_type = some (some t) → x ∈ st.all_orders := by
  constructor
  · unfold normalizeOrder bidTypeOk
    rcases hbt : o.bid_type with _ | bt
    · simp
    · rcases bt with _ | t
      · simp
      · simp only []
        constructor
        · intro ht
          rcases Bool.or_eq_true _ _ |>.mp ht with h | h <;>
            simp_all
        · intro hcase
          rcases hcase with h | h | h | h <;> simp_all
  · intro t hbt hsb hbb
    have hbad : ∀ x : Order, x.bid_type = some (some t) →
        bidTypeOk x = true → False := by
      intro x hxbt h3
      unfold bidTypeOk at h3
      rw [hxbt] at h3
      rcases Bool.or_eq_true _ _ |>.mp h3 with h | h
      · exact hsb (by simpa using h)
      · exact hbb (by simpa using h)
    have hko : checkOrder cfg addr aid o = none := by
      unfold checkOrder
      rw [if_neg]
      intro hA
      have hbt' : (normalizeOrder addr aid o).bid_type = some (some t) := by
        unfold normalizeOrder
        rw [hbt]
      have h3 : bidTypeOk (normalizeOrder addr aid o) = true := by
        simp only [checkAsserts, Bool.and_eq_true] at hA
        exact hA.1.1.1.1.1.2
      exact hbad _ hbt' h3
    refine ⟨hko, ?_, ?_⟩
    · intro hmem
      rw [handle_orderbook_failure_message cfg st batch addr aid ⟨o, hmem, hko⟩]
    · intro x hx hxbt
      rw [handle_orderbook_eq] at hx
      rcases List.mem_append.mp hx with h | h
      · exact h
      · exfalso
        obtain ⟨y, hy⟩ := mem_acceptedPrefix h
        obtain ⟨_, hA⟩ := checkOrder_eq_some hy
        have h3 : bidTypeOk x = true := by
          simp only [checkAsserts, Bool.and_eq_true] at hA
          exact hA.1.1.1.1.1.2
        exact hbad x hxbt h3

theorem bid_type_gate_witness :
    (bidTypeOk (normalizeOrder "a" "u" lbOrder) = true ↔
      (lbOrder.bid_type = none ∨ lbOrder.bid_type = some none
        ∨ lbOrder.bid_type = some (some "SB") ∨ lbOrder.bid_type = some (some "BB")))
    ∧ checkOrder cfg0 "a" "u" lbOrder = none
    ∧ (handle_orderbook cfg0 st0 [okOrder, lbOrder] "a" "u").2 =
        [⟨"a", "u", "submit_bids", "Rejected"⟩] :=
  ⟨(bid_type_gate cfg0 st0 [okOrder, lbOrder] "a" "u" lbOrder).1,
    ((bid_type_gate cfg0 st0 [okOrder, lbOrder] "a" "u" lbOrder).2 "LB"
      (by decide) (by decide) (by decide)).1,
    ((bid_type_gate cfg0 st0 [okOrder, lbOrder] "a" "u" lbOrder).2 "LB"
      (by decide) (by decide) (by decide)).2.1 (by decide)⟩

theorem checkAsserts_parts {cfg : MarketConfig} {o : Order}
    (h : checkAsserts cfg o = true) :
    o.price.toRat ≤ effMaxPrice cfg
    ∧ effMinPrice cfg ≤ o.price.toRat
    ∧ bidTypeOk o = true
    ∧ ((o.bid_type = some (some "SB") ∨ o.bid_type = none) →
        volumeAbsLe o.volume (effMaxVolume cfg) = true)
    ∧ (o.bid_type = some (some "BB") →
        mapVolumesLe o.volume (effMaxVolume cfg) = true)
    ∧ (cfg.price_tick.isSome = true → o.price.isInt = true)
    ∧ (cfg.volume_tick.isSome = true → o.volume.isInt = true)
    ∧ ∀ f ∈ cfg.additional_fields, o.hasKey f = true := by
  simp only [checkAsserts, Bool.and_eq_true, decide_eq_true_eq] at h
  obtain ⟨⟨⟨⟨⟨⟨⟨h1, h2⟩, h3⟩, h4⟩, h5⟩, h6⟩, h7⟩, h8⟩ := h
  refine ⟨h1, h2, h3, fun hc => ?_, fun hc => ?_, fun hc => ?_, fun hc => ?_, ?_⟩
  · rwa [if_pos hc] at h4
  · rwa [if_pos hc] at h5
  · rwa [if_pos hc] at h6
  · rwa [if_pos hc] at h7
  · exact List.all_eq_true.mp h8

theorem normalizeOrder_bid_type_ne (addr aid : String) (o : Order) :
    (normalizeOrder addr aid o).bid_type ≠ some none := by
  unfold normalizeOrder
  rcases o.bid_type with _ | bt
  · simp
  · rcases bt with _ | t <;> simp

theorem normalizeOrder_price (addr aid : String) (o : Order) :
    (normalizeOrder addr aid o).price = o.price := rfl

theorem normalizeOrder_volume (addr aid : String) (o : Order) :
    (normalizeOrder addr aid o).volume = o.volume := rfl

theorem normalizeOrder_bb (addr aid : String) {o : Order}
    (h : o.bid_type = some (some "BB")) :
    (normalizeOrder addr aid o).bid_type = some (some "BB") := by
  unfold normalizeOrder
  rw [h]

theorem checkOrder_bounds {cfg : MarketConfig} {addr aid : String} {o o' : Order}
    (h : checkOrder cfg addr aid o = some o') :
    priceInBounds cfg o' ∧ volumeInBounds cfg o' := by
  obtain ⟨ho', hA⟩ := checkOrder_eq_some h
  obtain ⟨h1, h2, h3, h4, h5, _, _, _⟩ := checkAsserts_parts hA
  refine ⟨⟨h2, h1⟩, ?_⟩
  unfold volumeInBounds
  by_cases hbb : o'.bid_type = some (some "BB")
  · rw [if_pos hbb]
    have h5' := h5 hbb
    unfold mapVolumesLe at h5'
    cases hv : o'.volume with
    | map m =>
      rw [hv] at h5'
      refine ⟨m, rfl, fun pv hpv => ?_⟩
      have := List.all_eq_true.mp h5' pv hpv
      simpa using this
    | int n => rw [hv] at h5'; cases h5'
    | float q => rw [hv] at h5'; cases h5'
  · rw [if_neg hbb]
    have hsb : o'.bid_type = some (some "SB") ∨ o'.bid_type = none := by
      rcases hb : o'.bid_type with _ | bt
      · right; rfl
      · rcases bt with _ | t
        · exact absurd hb (ho' ▸ normalizeOrder_bid_type_ne addr aid o)
        · left
          unfold bidTypeOk at h3
          rw [hb] at h3
          rcases Bool.or_eq_true _ _ |>.mp h3 with hx | hx
          · rw [decide_eq_true_eq.mp hx]
          · exact absurd (hb.trans (by rw [decide_eq_true_eq.mp hx])) hbb
    have h4' := h4 hsb
    unfold volumeAbsLe at h4'
    cases hv : o'.volume with
    | int n => rw [hv] at h4'; simpa using h4'
    | float q => rw [hv] at h4'; simpa using h4'
    | map m => rw [hv] at h4'; cases h4'

/-- C3: `handle_orderbook` preserves the invariant that every order in
the resting book has its price within the (tick-adjusted) configured
price bounds and its volume magnitude — every per-product volume, for a
block bid — bounded by the (tick-adjusted) maximum volume; an order
violating any of these bounds never appears in the book. -/
theorem resting_book_bounds (cfg : MarketConfig) (st : MarketState)
    (batch : List Order) (addr aid : String)
    (hinv : ∀ o ∈ st.all_orders, priceInBounds cfg o ∧ volumeInBounds cfg o) :
    ∀ o ∈ (handle_orderbook cfg st batch addr aid).1.all_orders,
      priceInBounds cfg o ∧ volumeInBounds cfg o := by
  intro o ho
  rw [handle_orderbook_eq] at ho
  rcases List.mem_append.mp ho with h | h
  · exact hinv o h
  · obtain ⟨x, hx⟩ := mem_acceptedPrefix h
    exact checkOrder_bounds hx

theorem resting_book_bounds_witness :
    priceInBounds cfg0 (normalizeOrder "a" "u" okOrder)
    ∧ volumeInBounds cfg0 (normalizeOrder "a" "u" okOrder) :=
  resting_book_bounds cfg0 st0 [okOrder] "a" "u" (by simp [st0])
    (normalizeOrder "a" "u" okOrder) (by decide)

theorem pynum_isInt_iff {p : PyNum} : p.isInt = true ↔ ∃ n, p = PyNum.int n := by
  cases p <;> simp [PyNum.isInt]

theorem pyvol_isInt_iff {v : PyVol} : v.isInt = true ↔ ∃ n, v = PyVol.int n := by
  cases v <;> simp [PyVol.isInt]

/-- C5: in a market with a configured price (resp. volume) tick, every
order stored in the resting book carries an integer price (resp.
volume) — the value is a count of ticks, hence an exact integer
multiple of the tick — and a batch containing an order whose submitted
price or volume is not an integer is rejected with a rejection
notice. -/
theorem tick_integrality (cfg : MarketConfig) (st : MarketState)
    (batch : List Order) (addr aid : String)
    (hp : ∀ o ∈ st.all_orders, cfg.price_tick.isSome = true →
      ∃ n, o.price = PyNum.int n)
    (hv : ∀ o ∈ st.all_orders, cfg.volume_tick.isSome = true →
      ∃ n, o.volume = PyVol.int n) :
    (∀ o ∈ (handle_orderbook cfg st batch addr aid).1.all_orders,
        (cfg.price_tick.isSome = true → ∃ n, o.price = PyNum.int n)
        ∧ (cfg.volume_tick.isSome = true → ∃ n, o.volume = PyVol.int n))
    ∧ ∀ o ∈ batch,
        ((cfg.price_tick.isSome = true ∧ ∀ n : Int, o.price ≠ PyNum.int n)
          ∨ (cfg.volume_tick.isSome = true ∧ ∀ n : Int, o.volume ≠ PyVol.int n)) →
        (handle_orderbook cfg st batch addr aid).2 =
          [⟨addr, aid, "submit_bids", "Rejected"⟩] := by
  constructor
  · intro o ho
    rw [handle_orderbook_eq] at ho
    rcases List.mem_append.mp ho with h | h
    · exact ⟨hp o h, hv o h⟩
    · obtain ⟨x, hx⟩ := mem_acceptedPrefix h
      obtain ⟨_, hA⟩ := checkOrder_eq_some hx
      obtain ⟨_, _, _, _, _, h6, h7, _⟩ := checkAsserts_parts hA
      exact ⟨fun hc => pynum_isInt_iff.mp (h6 hc),
        fun hc => pyvol_isInt_iff.mp (h7 hc)⟩
  · intro o ho hbad
    have hko : checkOrder cfg addr aid o = none := by
      cases hx : checkOrder cfg addr aid o with
      | none => rfl
      | some o' =>
        obtain ⟨ho', hA⟩ := checkOrder_eq_some hx
        obtain ⟨_, _, _, _, _, h6, h7, _⟩ := checkAsserts_parts hA
        exfalso
        rcases hbad with ⟨htick, hni⟩ | ⟨htick, hni⟩
        · obtain ⟨n, hn⟩ := pynum_isInt_iff.mp (h6 htick)
          rw [ho', normalizeOrder_price] at hn
          exact hni n hn
        · obtain ⟨n, hn⟩ := pyvol_isInt_iff.mp (h7 htick)
          rw [ho', normalizeOrder_volume] at hn
          exact hni n hn
    rw [handle_orderbook_failure_message cfg st batch addr aid ⟨o, ho, hko⟩]

theorem tick_integrality_witness :
    (handle_orderbook cfgP st0 [okOrder] "a" "u").2 =
      [⟨"a", "u", "submit_bids", "Rejected"⟩] :=
  (tick_integrality cfgP st0 [okOrder] "a" "u" (by simp [st0]) (by simp [st0])).2
    okOrder (by simp) (Or.inl ⟨rfl, fun n h => PyNum.noConfusion h⟩)

theorem checkAsserts_bb_volume_tick {cfg : MarketConfig} {o : Order}
    (hA : checkAsserts cfg o = true) (hvt : cfg.volume_tick.isSome = true)
    (hbb : o.bid_type = some (some "BB")) : False := by
  obtain ⟨_, _, _, _, h5, _, h7, _⟩ := checkAsserts_parts hA
  obtain ⟨n, hn⟩ := pyvol_isInt_iff.mp (h7 hvt)
  have h5' := h5 hbb
  rw [hn] at h5'
  unfold mapVolumesLe at h5'
  cases h5'

/-- C10: in a market with a configured volume tick, every block bid
(tag "BB") fails validation — the integer check on the volume cannot
hold together with the block-bid mapping check — so a batch containing
one is discarded with a rejection notice, and no block bid can ever
enter the resting book of such a market. -/
theorem bb_rejected_volume_tick (cfg : MarketConfig) (st : MarketState)
    (batch : List Order) (addr aid : String) (o : Order)
    (hvt : cfg.volume_tick.isSome = true) (hbb : o.bid_type = some (some "BB"))
    (hmem : o ∈ batch)
    (hinv : ∀ x ∈ st.all_orders, x.bid_type ≠ some (some "BB")) :
    checkOrder cfg addr aid o = none
    ∧ (handle_orderbook cfg st batch addr aid).2 =
        [⟨addr, aid, "submit_bids", "Rejected"⟩]
    ∧ ∀ x ∈ (handle_orderbook cfg st batch addr aid).1.all_orders,
        x.bid_type ≠ some (some "BB") := by
  have hko : checkOrder cfg addr aid o = none := by
    cases hx : checkOrder cfg addr aid o with
    | none => rfl
    | some o' =>
      obtain ⟨ho', hA⟩ := checkOrder_eq_some hx
      exact absurd (checkAsserts_bb_volume_tick hA hvt
        (ho' ▸ normalizeOrder_bb addr aid hbb)) not_false
  refine ⟨hko, ?_, ?_⟩
  · rw [handle_orderbook_failure_message cfg st batch addr aid ⟨o, hmem, hko⟩]
  · intro x hx
    rw [handle_orderbook_eq] at hx
    rcases List.mem_append.mp hx with h | h
    · exact hinv x h
    · obtain ⟨y, hy⟩ := mem_acceptedPrefix h
      obtain ⟨_, hA⟩ := checkOrder_eq_some hy
      intro hxbb
      exact checkAsserts_bb_volume_tick hA hvt hxbb

theorem bb_rejected_volume_tick_witness :
    checkOrder cfgV "a" "u" bbOrder = none
    ∧ (handle_orderbook cfgV st0 [bbOrder] "a" "u").2 =
        [⟨"a", "u", "submit_bids", "Rejected"⟩] :=
  ⟨(bb_rejected_volume_tick cfgV st0 [bbOrder] "a" "u" bbOrder rfl rfl
      (by simp) (by simp [st0])).1,
    (bb_rejected_volume_tick cfgV st0 [bbOrder] "a" "u" bbOrder rfl rfl
      (by simp) (by simp [st0])).2.1⟩

/-! ### Sorting and grouping by `agent_id` (for the clearing fan-out) -/

theorem groupPairs_cons (a : Order) (rest : List Order) :
    groupPairs agentKey (a :: rest) =
      addToGroups agentKey a (groupPairs agentKey rest) := rfl

theorem addToGroups_nil (a : Order) :
    addToGroups agentKey a [] = [(agentKey a, [a])] := rfl

theorem addToGroups_cons (a : Order) (k : WithBot (Lex (String × String)))
    (g : List Order) (gs : List (WithBot (Lex (String × String)) × List Order)) :
    addToGroups agentKey a ((k, g) :: gs) =
      if agentKey a = k then (agentKey a, a :: g) :: gs
      else (agentKey a, [a]) :: (k, g) :: gs := rfl

theorem dictGet_cons (p : WithBot (Lex (String × String)) × List Order)
    (rest : List (WithBot (Lex (String × String)) × List Order))
    (a : WithBot (Lex (String × String))) :
    dictGet (p :: rest) a = dictStep p a (dictGet rest a) := rfl

theorem dictStep_some (p : WithBot (Lex (String × String)) × List Order)
    (a : WithBot (Lex (String × String))) (r : List Order) :
    dictStep p a (some r) = some r := rfl

theorem dictStep_none (p : WithBot (Lex (String × String)) × List Order)
    (a : WithBot (Lex (String × String))) :
    dictStep p a none = if p.1 = a then some p.2 else none := rfl

theorem groupPairs_eq_nil {s : List Order} :
    groupPairs agentKey s = [] ↔ s = [] := by
  constructor
  · intro h
    cases s with
    | nil => rfl
    | cons a rest =>
      exfalso
      rw [groupPairs_cons] at h
      cases hr : groupPairs agentKey rest with
      | nil => rw [hr, addToGroups_nil] at h; cases h
      | cons p gs =>
        rcases p with ⟨k, g⟩
        rw [hr, addToGroups_cons] at h
        by_cases hk : agentKey a = k
        · rw [if_pos hk] at h; cases h
        · rw [if_neg hk] at h; cases h
  · rintro rfl; rfl

theorem groupPairs_cons_elim {s : List Order} {k : WithBot (Lex (String × String))}
    {g : List Order} {gs : List (WithBot (Lex (String × String)) × List Order)}
    (h : groupPairs agentKey s = (k, g) :: gs) :
    ∃ t, s = g ++ t ∧ groupPairs agentKey t = gs ∧ g ≠ []
      ∧ (∀ x ∈ g, agentKey x = k)
      ∧ ∀ y, t.head? = some y → agentKey y ≠ k := by
  induction s generalizing k g gs with
  | nil => cases h
  | cons a rest ih =>
    rw [groupPairs_cons] at h
    cases hr : groupPairs agentKey rest with
    | nil =>
      rw [hr, addToGroups_nil] at h
      injection h with h1 h2
      injection h1 with hk hg
      subst hk; subst hg
      refine ⟨[], by simp [groupPairs_eq_nil.mp hr], by rw [← h2]; rfl, by simp, ?_, ?_⟩
      · intro x hx
        rcases List.mem_singleton.mp hx with rfl
        rfl
      · intro y hy
        cases hy
    | cons p gs1 =>
      rcases p with ⟨k1, g1⟩
      rw [hr, addToGroups_cons] at h
      obtain ⟨t1, hrest, hgpt1, hg1ne, hkeys1, hhead1⟩ := ih hr
      by_cases hk : agentKey a = k1
      · rw [if_pos hk] at h
        injection h with h1 h2
        injection h1 with hka hg
        subst hka; subst hg; subst h2
        refine ⟨t1, by rw [hrest]; rfl, hgpt1, by simp, ?_, ?_⟩
        · intro x hx
          rcases List.mem_cons.mp hx with rfl | hx1
          · rfl
          · rw [hkeys1 x hx1, hk]
        · intro y hy heq
          exact hhead1 y hy (heq.trans hk)
      · rw [if_neg hk] at h
        injection h with h1 h2
        injection h1 with hka hg
        subst hka; subst hg; subst h2
        refine ⟨rest, rfl, hr, by simp, ?_, ?_⟩
        · intro x hx
          rcases List.mem_singleton.mp hx with rfl
          rfl
        · intro y hy heq
          cases hg1 : g1 with
          | nil => exact hg1ne hg1
          | cons b g1' =>
            have hby : y = b := by
              rw [hrest, hg1] at hy
              exact (Option.some.inj hy).symm
            have hkb : agentKey b = k1 := hkeys1 b (by rw [hg1]; exact List.mem_cons_self b g1')
            rw [hby, hkb] at heq
            exact hk heq.symm

theorem groupPairs_key_mem {s : List Order}
    {p : WithBot (Lex (String × String)) × List Order}
    (h : p ∈ groupPairs agentKey s) : ∃ x ∈ s, agentKey x = p.1 := by
  induction s generalizing p with
  | nil => cases h
  | cons a rest ih =>
    rw [groupPairs_cons] at h
    cases hr : groupPairs agentKey rest with
    | nil =>
      rw [hr, addToGroups_nil] at h
      rcases List.mem_singleton.mp h with rfl
      exact ⟨a, List.mem_cons_self a rest, rfl⟩
    | cons q gs1 =>
      rcases q with ⟨k1, g1⟩
      rw [hr, addToGroups_cons] at h
      by_cases hk : agentKey a = k1
      · rw [if_pos hk] at h
        rcases List.mem_cons.mp h with rfl | h1
        · exact ⟨a, List.mem_cons_self a rest, rfl⟩
        · obtain ⟨x, hx, hkx⟩ := ih (by rw [hr]; exact List.mem_cons_of_mem _ h1)
          exact ⟨x, List.mem_cons_of_mem a hx, hkx⟩
      · rw [if_neg hk] at h
        rcases List.mem_cons.mp h with rfl | h1
        · exact ⟨a, List.mem_cons_self a rest, rfl⟩
        · obtain ⟨x, hx, hkx⟩ := ih (by rw [hr]; exact h1)
          exact ⟨x, List.mem_cons_of_mem a hx, hkx⟩

theorem dictGet_eq_none {gs : List (WithBot (Lex (String × String)) × List Order)}
    {a : WithBot (Lex (String × String))} (h : ∀ p ∈ gs, p.1 ≠ a) :
    dictGet gs a = none := by
  induction gs with
  | nil => rfl
  | cons p rest ih =>
    rcases p with ⟨k, v⟩
    rw [dictGet_cons, ih fun q hq => h q (List.mem_cons_of_mem _ hq), dictStep_none]
    exact if_neg (h (k, v) (List.mem_cons_self _ _))

theorem dictGet_groupPairs {gs : List (WithBot (Lex (String × String)) × List Order)} :
    ∀ {s : List Order}, groupPairs agentKey s = gs →
      s.Pairwise (fun x y => agentKey x ≤ agentKey y) →
      ∀ a, (dictGet gs a).getD [] = s.filter fun x => decide (agentKey x = a) := by
  induction gs with
  | nil =>
    intro s hgp _ a
    rw [groupPairs_eq_nil.mp hgp]
    rfl
  | cons p gs' ih =>
    rcases p with ⟨k, g⟩
    intro s hgp hsort a
    obtain ⟨t, rfl, hgpt, hgne, hkeys, hhead⟩ := groupPairs_cons_elim hgp
    have hparts := List.pairwise_append.mp hsort
    have iht := ih hgpt hparts.2.1
    rw [List.filter_append]
    by_cases ha : k = a
    · subst ha
      have hfg : (g.filter fun x => decide (agentKey x = k)) = g :=
        List.filter_eq_self.mpr fun x hx => by simp [hkeys x hx]
      have htk : ∀ y ∈ t, agentKey y ≠ k := by
        intro y hy heq
        cases ht : t with
        | nil => rw [ht] at hy; cases hy
        | cons h0 t' =>
          have hh0 : agentKey h0 ≠ k := hhead h0 (by rw [ht]; rfl)
          obtain ⟨x0, hx0⟩ := List.exists_mem_of_ne_nil g hgne
          have h1 : agentKey x0 ≤ agentKey h0 :=
            hparts.2.2 x0 hx0 h0 (by rw [ht]; exact List.mem_cons_self h0 t')
          rw [hkeys x0 hx0] at h1
          have h2 : agentKey h0 ≤ agentKey y := by
            rw [ht] at hy
            rcases List.mem_cons.mp hy with rfl | hy'
            · exact le_refl _
            · have hps := hparts.2.1
              rw [ht] at hps
              exact List.rel_of_pairwise_cons hps hy'
          rw [heq] at h2
          exact hh0 (le_antisymm h2 h1)
      have hft : (t.filter fun x => decide (agentKey x = k)) = [] :=
        List.filter_eq_nil_iff.mpr fun y hy => by simpa using htk y hy
      have hnone : dictGet gs' k = none := by
        apply dictGet_eq_none
        intro q hq
        obtain ⟨y, hy, hky⟩ := groupPairs_key_mem (hgpt ▸ hq)
        rw [← hky]
        exact htk y hy
      have hsome : dictGet ((k, g) :: gs') k = some g := by
        rw [dictGet_cons, hnone, dictStep_none]
        exact if_pos rfl
      rw [hsome, hfg, hft, List.append_nil]
      rfl
    · have hfg : (g.filter fun x => decide (agentKey x = a)) = [] :=
        List.filter_eq_nil_iff.mpr fun x hx => by simp [hkeys x hx, ha]
      have hstep : (dictGet ((k, g) :: gs') a).getD [] = (dictGet gs' a).getD [] := by
        rw [dictGet_cons]
        cases hd : dictGet gs' a with
        | some r => rw [dictStep_some]
        | none => rw [dictStep_none, if_neg ha]
      rw [hstep, iht a, hfg, List.nil_append]

theorem agentLe_trans (a b c : Order) (hab : agentLe a b) (hbc : agentLe b c) :
    agentLe a c := by
  simp only [agentLe, decide_eq_true_eq] at *
  exact le_trans hab hbc

theorem agentLe_total (a b : Order) : agentLe a b || agentLe b a := by
  simp only [agentLe, Bool.or_eq_true, decide_eq_true_eq]
  exact le_total _ _

theorem mergeSort_agent_sorted (book : List Order) :
    (book.mergeSort agentLe).Pairwise fun x y => agentKey x ≤ agentKey y := by
  have h := List.sorted_mergeSort agentLe_trans agentLe_total book
  exact h.imp fun {a b} hab => by simpa [agentLe] using hab

theorem bidsByAgent_perm (book : List Order) (a : WithBot (Lex (String × String))) :
    ((dictGet (bidsByAgent book) a).getD []).Perm
      (book.filter fun o => decide (agentKey o = a)) := by
  unfold bidsByAgent
  rw [dictGet_groupPairs rfl (mergeSort_agent_sorted book) a]
  exact (List.mergeSort_perm book agentLe).filter _

theorem agentKey_eq_pairKey (o : Order) (ag : String × String) :
    agentKey o = pairKey ag ↔ o.agent_id = some ag := by
  unfold agentKey pairKey
  cases h : o.agent_id with
  | none => simp
  | some p => simp

theorem bidsByAgent_perm_filter (book : List Order) (ag : String × String) :
    ((dictGet (bidsByAgent book) (pairKey ag)).getD []).Perm
      (book.filter fun o => decide (o.agent_id = some ag)) := by
  have h := bidsByAgent_perm book (pairKey ag)
  have heq : (book.filter fun o => decide (agentKey o = pairKey ag))
      = book.filter fun o => decide (o.agent_id = some ag) :=
    List.filter_congr fun o _ => by simp [agentKey_eq_pairKey]
  rwa [heq] at h

/-- C6: on every clearing pass, the fan-out sends one clearing notice
per entry of the registered-agent list (in order), addressed to that
agent, whose `orderbook` contains exactly the accepted orders with that
agent's (address, id) as `agent_id` and whose `rejected` contains
exactly the rejected orders with that `agent_id`; an agent with no
orders in either set receives a notice with both lists empty. -/
theorem clear_market_fanout (cfg : MarketConfig)
    (mech : MarketState → List MarketProduct → MechResult × MarketState)
    (st : MarketState) (products : List MarketProduct) :
    List.Forall₂ (fun ag m =>
        m.receiver_addr = ag.1 ∧ m.receiver_id = ag.2 ∧ m.market_id = cfg.name
        ∧ m.orderbook.Perm ((mech st products).1.accepted.filter
            fun o => decide (o.agent_id = some ag))
        ∧ m.rejected.Perm ((mech st products).1.rejected.filter
            fun o => decide (o.agent_id = some ag)))
      (mech st products).2.registered_agents
      (clear_market cfg mech st products).2 := by
  show List.Forall₂ _ _ (clearingMessages cfg (mech st products).1.accepted
    (mech st products).1.rejected (mech st products).2.registered_agents)
  unfold clearingMessages
  rw [List.forall₂_map_right_iff, List.forall₂_same]
  intro ag _
  exact ⟨rfl, rfl, rfl, bidsByAgent_perm_filter _ ag, bidsByAgent_perm_filter _ ag⟩

end AssumeMarket
